import Mathlib

/-!
Verification of the commit-linting and dynamic-dependency-resolution pipeline
of the actions-commitlint repository.

The definitions below are shallow embeddings of the TypeScript sources.
JavaScript objects are modelled as association lists of JSON values, JavaScript
strings as Lean strings, and the file system and the npm subprocess as explicit
parameters.  Each definition names, in its doc comment, the source function it
embeds.  External collaborators (JSON.parse, yaml.parse, the commitlint rule
engine, @commitlint/load) are taken as function parameters, matching the
specification's component boundaries.
-/

/-- A JSON value as produced by JSON.parse or the YAML parser.  Objects are
association lists of bindings in key order; numbers are modelled as integers
since no behaviour in the embedded code depends on fractional values.  The
JavaScript value `undefined` is modelled as the absence of a binding. -/
inductive JsonValue where
  | null : JsonValue
  | bool (b : Bool) : JsonValue
  | num (n : Int) : JsonValue
  | str (s : String) : JsonValue
  | arr (elems : List JsonValue) : JsonValue
  | obj (fields : List (String × JsonValue)) : JsonValue

/-- Property access `o[k]` on a JavaScript object modelled as an association
list: the value of the first binding of the key, `none` when the key is
absent (JavaScript `undefined`). -/
def jsonLookup (fields : List (String × JsonValue)) (key : String) : Option JsonValue :=
  match fields with
  | [] => none
  | (k, v) :: rest => if k = key then some v else jsonLookup rest key

/-- Property assignment `o[k] = v`: overwrite the first binding of the key in
place, or append a new binding when the key is absent. -/
def setKey (fields : List (String × JsonValue)) (key : String) (v : JsonValue) :
    List (String × JsonValue) :=
  match fields with
  | [] => [(key, v)]
  | (k, w) :: rest => if k = key then (k, v) :: rest else (k, w) :: setKey rest key v

/-- JavaScript truthiness of a JSON value. -/
def jsTruthy : JsonValue → Bool
  | .null => false
  | .bool b => b
  | .num n => n != 0
  | .str s => s != ""
  | .arr _ => true
  | .obj _ => true

/-- Index of the last occurrence of a character in a character list, `-1` when
the character does not occur (String.prototype.lastIndexOf). -/
def lastIdxOf (l : List Char) (c : Char) : Int :=
  match l with
  | [] => -1
  | a :: rest =>
      let r := lastIdxOf rest c
      if 0 ≤ r then r + 1 else if a = c then 0 else -1

/-- Whether `needle` occurs at the start of `hay`. -/
def listLeads (needle hay : List Char) : Bool :=
  match needle, hay with
  | [], _ => true
  | _ :: _, [] => false
  | a :: as, b :: bs => a == b && listLeads as bs

/-- Whether `needle` occurs as a contiguous segment of `hay`. -/
def listHasSeg (needle hay : List Char) : Bool :=
  match hay with
  | [] => needle.isEmpty
  | _ :: bs => listLeads needle hay || listHasSeg needle bs

/-- Substring containment, modelling JavaScript `haystack.includes(needle)`:
used to state that an error message carries a path or a wrapped message
verbatim. -/
def strContains (hay needle : String) : Bool :=
  listHasSeg needle.data hay.data

/-- Whether a string starts with the single character `c`
(String.prototype.startsWith with a one-character argument). -/
def startsWithChar (s : String) (c : Char) : Bool :=
  s.data.head? == some c

/-- The ASCII whitespace characters relevant to the embedded code's inputs. -/
def charIsWs (c : Char) : Bool :=
  c == ' ' || c == '\n' || c == '\t' || c == '\r'

/-- String.prototype.trim, restricted to ASCII whitespace. -/
def jsTrim (s : String) : String :=
  String.mk (((s.data.dropWhile charIsWs).reverse.dropWhile charIsWs).reverse)

/-- ASCII lower-casing (String.prototype.toLowerCase on the extension
strings the embedded code inspects, which are ASCII). -/
def strToLower (s : String) : String :=
  String.mk (s.data.map Char.toLower)

/-- node:path `basename` for the normalized absolute paths the runner works
with: the part of the path after the last slash. -/
def basenameOf (p : String) : String :=
  String.mk ((p.data.reverse.takeWhile (fun c => c != '/')).reverse)

/-- node:path `extname` restricted to a basename: the suffix from the last
dot, or the empty string when the basename has no dot or only a leading dot
(so dotfiles such as `.commitlintrc` have no extension). -/
def extnameOfBase (b : String) : String :=
  let i := lastIdxOf b.data '.'
  if 0 < i then String.mk (b.data.drop i.toNat) else ""

/-- node:path `extname` of a path: the extension of its basename. -/
def extnameOf (p : String) : String :=
  extnameOfBase (basenameOf p)

/-- node:path `isAbsolute` with POSIX semantics (the action runs on Linux
runners): a path is absolute when it starts with a slash. -/
def pathIsAbsolute (s : String) : Bool :=
  startsWithChar s '/'

/-- One rule violation as reported by the rule engine
(`RuleProblem = \x7b level, valid, name, message \x7d` in the spec). -/
structure LintProblem where
  level : Nat
  valid : Bool
  name : String
  message : String

/-- The outcome of evaluating one commit message against the loaded rules
(`LintOutcome` of @commitlint/types, as consumed by the Linter). -/
structure LintOutcome where
  valid : Bool
  errors : List LintProblem
  warnings : List LintProblem
  input : String

/-- A commit to lint, from src/types.ts (`CommitToLint`). -/
structure CommitToLint where
  message : String
  hash : String

/-- A flattened per-commit result, from src/linter/index.ts
(`SimplifiedLinterResult = \x7b hash \x7d & LintOutcome`). -/
structure SimplifiedLinterResult where
  hash : String
  valid : Bool
  errors : List LintProblem
  warnings : List LintProblem
  input : String

/-- The `Results` container of src/linter/result.ts: the items, the help URL,
and the aggregate error and warning counts stored at construction. -/
structure Results where
  items : List SimplifiedLinterResult
  helpUrl : String
  errorCount : Nat
  warningCount : Nat

/-- The `Results` constructor: stores the items and the help URL and computes
`errorCount` and `warningCount` by the same reduce over the items, summing the
lengths of each item's `errors` and `warnings` arrays from `(0, 0)`. -/
def mkResults (items : List SimplifiedLinterResult) (helpUrl : String) : Results :=
  let counts := items.foldl
    (fun (c : Nat × Nat) item => (c.1 + item.errors.length, c.2 + item.warnings.length))
    (0, 0)
  { items := items, helpUrl := helpUrl, errorCount := counts.1, warningCount := counts.2 }

/-- The `checkedCount` getter of `Results`: the number of items. -/
def Results.checkedCount (r : Results) : Nat :=
  r.items.length

/-- The `hasErrors` getter of `Results`: `errorCount > 0`. -/
def Results.hasErrors (r : Results) : Bool :=
  decide (r.errorCount > 0)

/-- The `hasOnlyWarnings` getter of `Results`:
`errorCount === 0 && warningCount > 0`. -/
def Results.hasOnlyWarnings (r : Results) : Bool :=
  decide (r.errorCount = 0) && decide (r.warningCount > 0)

/-- How `Linter.loadEffectiveConfig` (src/linter/index.ts) resolved the rule
set: from the explicitly given file, or from the hard-coded default seed
`extends: ['@commitlint/config-conventional']`. -/
inductive ConfigSource where
  | fromFile (path : String)
  | defaultConventional

/-- `Linter.loadEffectiveConfig` of src/linter/index.ts.  With a truthy
`configPathInput` the file must exist, otherwise the method throws an error
naming the exact path; with a null or empty input it loads the default
`@commitlint/config-conventional` seed.  The file system is the
`fsExistsSync` parameter; what @commitlint/load returns is abstracted into
the `ConfigSource` tag that records which seed was used. -/
def loadEffectiveConfig (configPathInput : Option String)
    (fsExistsSync : String → Bool) : Except String ConfigSource :=
  match configPathInput with
  | some p =>
      if p = "" then Except.ok ConfigSource.defaultConventional
      else if fsExistsSync p then Except.ok (ConfigSource.fromFile p)
      else Except.error ("Specified configuration file was not found at: " ++ p)
  | none => Except.ok ConfigSource.defaultConventional

/-- The part of the loaded commitlint configuration the Linter reads:
the qualified rules and the help URL (src/types.ts, LoadedCommitlintConfig,
restricted to the fields the claims mention). -/
structure LoadedCommitlintConfig where
  rules : List (String × JsonValue)
  helpUrl : String

/-- `Linter.lint` of src/linter/index.ts: resolve the effective configuration
(propagating its error), evaluate every commit message with the engine in
input order, attach each commit's hash, and package the outcomes together
with the final help URL (the override if non-empty, else the configuration's
own, else the empty string) into a `Results`.  The external collaborators
@commitlint/load and @commitlint/lint are the `loadConfig` and `lintLib`
parameters. -/
def linterLint (commitsToLint : List CommitToLint) (configPathInput : Option String)
    (fsExistsSync : String → Bool)
    (loadConfig : ConfigSource → LoadedCommitlintConfig)
    (lintLib : String → LoadedCommitlintConfig → LintOutcome)
    (helpUrlInput : String) : Except String Results :=
  match loadEffectiveConfig configPathInput fsExistsSync with
  | Except.error e => Except.error e
  | Except.ok source =>
      let loadedConfig := loadConfig source
      let results := commitsToLint.map (fun commit =>
        let r := lintLib commit.message loadedConfig
        { hash := commit.hash, valid := r.valid, errors := r.errors,
          warnings := r.warnings, input := r.input : SimplifiedLinterResult })
      let finalHelpUrl :=
        if helpUrlInput != "" then helpUrlInput
        else if (loadedConfig.helpUrl) != "" then loadedConfig.helpUrl
        else ""
      Except.ok (mkResults results finalHelpUrl)

/-- Outcome of an external text parser (JSON.parse or yaml.parse): the parsed
value, or the message of the error the parser threw. -/
abbrev ParseFn := String → Except String JsonValue

/-- The extensionless branch of
`DeclarativeStrategy._parseDeclarativeConfigFile` (src/strategies, variant
with the YAML fallback): attempt JSON first; on failure attempt YAML; when
both fail, throw a single error embedding both parser messages. -/
def parseNoExt (jsonParse yamlParse : ParseFn) (filename content : String) :
    Except String JsonValue :=
  match jsonParse content with
  | Except.ok c => Except.ok c
  | Except.error jErrorMsg =>
      match yamlParse content with
      | Except.ok c => Except.ok c
      | Except.error yErrorMsg =>
          Except.error ("File \x27" ++ filename ++ "\x27: JSON parse failed (Error: "
            ++ jErrorMsg ++ "), YAML parse also failed (Error: " ++ yErrorMsg
            ++ "). Unsupported format or malformed.")

/-- The extension dispatch of `DeclarativeStrategy._parseDeclarativeConfigFile`:
`.json` parses as JSON, `.yaml`/`.yml` as YAML, an empty extension goes through
the JSON-then-YAML fallback, and any other extension is rejected with an error
naming the extension and the path. -/
def parseByExtension (jsonParse yamlParse : ParseFn)
    (extension filename filepath content : String) : Except String JsonValue :=
  match extension with
  | ".json" => jsonParse content
  | ".yaml" => yamlParse content
  | ".yml" => yamlParse content
  | "" => parseNoExt jsonParse yamlParse filename content
  | _ =>
      Except.error ("Unsupported declarative config file format/extension: \x27"
        ++ extension ++ "\x27 for \x27" ++ filepath ++ "\x27.")

/-- `DeclarativeStrategy._parseDeclarativeConfigFile`: compute the lower-cased
extension and the basename of the path and dispatch on the extension.  The
file content is a parameter (the read itself is I/O). -/
def parseDeclarativeConfigFile (jsonParse yamlParse : ParseFn)
    (filepath content : String) : Except String JsonValue :=
  parseByExtension jsonParse yamlParse
    (strToLower (extnameOf filepath)) (basenameOf filepath) filepath content

/-- De-duplication keeping the first occurrence of every element, in order
(the behaviour of collecting into a JavaScript `Set` and converting back to an
array). -/
def dedupFirst (seen : List String) : List String → List String
  | [] => []
  | x :: xs => if seen.contains x then dedupFirst seen xs
               else x :: dedupFirst (x :: seen) xs

/-- `DeclarativeStrategy._extractDependenciesFromDeclarativeConfig`
(functional variant): normalize `extends` (absent or falsy to the empty list,
a single value to a singleton, an array as is), keep its non-blank strings
trimmed; map each `plugins` entry to its name (the entry itself when a string,
its first element when a tuple starting with a string), trimmed, dropping
blank or non-string names; concatenate and de-duplicate keeping first-seen
order.  The config is the field list of the parsed object; the `plugins`
field, when present, is an array per the declared config type. -/
def extractDependencies (config : List (String × JsonValue)) : List String :=
  let extendsArray : List JsonValue :=
    match jsonLookup config "extends" with
    | some (JsonValue.arr xs) => xs
    | some v => if jsTruthy v then [v] else []
    | none => []
  let validExtends : List String := extendsArray.filterMap (fun x =>
    match x with
    | JsonValue.str s => if jsTrim s = "" then none else some (jsTrim s)
    | _ => none)
  let pluginsArray : List JsonValue :=
    match jsonLookup config "plugins" with
    | some (JsonValue.arr xs) => xs
    | _ => []
  let validPlugins : List String := pluginsArray.filterMap (fun p =>
    match p with
    | JsonValue.str s => if jsTrim s = "" then none else some (jsTrim s)
    | JsonValue.arr (JsonValue.str s :: _) =>
        if jsTrim s = "" then none else some (jsTrim s)
    | _ => none)
  dedupFirst [] (validExtends ++ validPlugins)

/-- The `(name, version)` split of one dependency identifier inside
`declarativeLoader` (src/loaders.ts): take the last `@`; when it sits at a
positive index and the identifier starts with `@`, the name is everything
before it and the version everything after it; otherwise the whole identifier
is the name and the version is the wildcard `*`. -/
def splitDependency (entry : String) : String × String :=
  let a := lastIdxOf entry.data '@'
  if 0 < a ∧ entry.data.head? = some '@' then
    (String.mk (entry.data.take a.toNat), String.mk (entry.data.drop (a.toNat + 1)))
  else (entry, "*")

/-- The default manifest `DeclarativeStrategy.execute` starts from. -/
def defaultManifestFields : List (String × JsonValue) :=
  [("name", JsonValue.str "commitlint-action-dynamic-deps"),
   ("version", JsonValue.str "1.0.0"),
   ("description",
     JsonValue.str "Dynamically managed dependencies for commitlint GitHub Action"),
   ("private", JsonValue.bool true),
   ("dependencies", JsonValue.obj [])]

/-- The `dependencies` map of a manifest: the fields of its `dependencies`
object, empty when the field is absent or not an object (the code resets a
falsy `dependencies` to an empty object; a truthy non-object value cannot
occur for the declared manifest type). -/
def manifestDepsField (m : List (String × JsonValue)) : List (String × JsonValue) :=
  match jsonLookup m "dependencies" with
  | some (JsonValue.obj fs) => fs
  | _ => []

/-- The object spread `\x7b ...defaults, ...existing \x7d` of
`DeclarativeStrategy.execute` viewed as a key-to-value map: bindings of the
existing manifest win, default bindings fill in missing keys.  (The model
keeps the existing bindings first; no claim depends on the key order of the
written file.) -/
def spreadDefaults (existing : List (String × JsonValue)) : List (String × JsonValue) :=
  existing ++ defaultManifestFields.filter (fun kv => !(jsonLookup existing kv.1).isSome)

/-- One iteration of the dependency-adding loop of
`DeclarativeStrategy.execute`: identifiers starting with `.` and absolute
paths are skipped; otherwise
`dependencies[dep] = dependencies[dep] || '*'` keeps a truthy existing
version and writes `*` over an absent or falsy one. -/
def mergeDepStep (deps : List (String × JsonValue)) (dep : String) :
    List (String × JsonValue) :=
  if !(startsWithChar dep '.') && !(pathIsAbsolute dep) then
    match jsonLookup deps dep with
    | some v => if jsTruthy v then deps else setKey deps dep (JsonValue.str "*")
    | none => setKey deps dep (JsonValue.str "*")
  else deps

/-- The dependency-adding loop of `DeclarativeStrategy.execute` over the
extracted identifiers. -/
def mergeDeps (deps : List (String × JsonValue)) (dependenciesToInstall : List String) :
    List (String × JsonValue) :=
  dependenciesToInstall.foldl mergeDepStep deps

/-- The manifest written by `DeclarativeStrategy.execute`: spread the parsed
existing manifest over the defaults (or fall back to the defaults when
nothing parseable exists), then replace the `dependencies` field with the
merged dependency map. -/
def mergedManifest (parsedExisting : Option (List (String × JsonValue)))
    (dependenciesToInstall : List String) : List (String × JsonValue) :=
  match parsedExisting with
  | some m =>
      setKey (spreadDefaults m) "dependencies"
        (JsonValue.obj (mergeDeps (manifestDepsField m) dependenciesToInstall))
  | none =>
      setKey defaultManifestFields "dependencies"
        (JsonValue.obj (mergeDeps [] dependenciesToInstall))

/-- What the `npm install` subprocess did, as observed by the `catch` block of
`AbstractStrategy.runNpmInstall` (src/strategies/base.ts): success, an
`execSync` error carrying an exit status plus captured output (with
`encoding: 'utf-8'`, so the captured streams are strings; an absent stream
and an empty one are both falsy and are modelled as the empty string), a
plain `Error` without a status, or a thrown non-Error value. -/
inductive ExecOutcome where
  | success (stdout : String)
  | failedWithStatus (status : Option Int) (message stderr stdout : String)
  | failedError (message : String)
  | failedUnknown (text : String)

/-- The error message built by `AbstractStrategy.runNpmInstall` when
`npm install` fails, `none` on success.  For an `execSync` error the message
accumulates the working directory, the exit code (or `unknown`), the error
message, the captured stderr when truthy, and the captured stdout when truthy
and non-blank after trimming. -/
def runNpmInstallMessage (workingDirectory : String) : ExecOutcome → Option String
  | ExecOutcome.success _ => none
  | ExecOutcome.failedWithStatus status message stderr stdout =>
      let m0 := "npm install failed in " ++ workingDirectory ++ "."
      let m1 := (m0 ++ "\nExit Code: ")
        ++ (match status with | some s => toString s | none => "unknown")
      let m2 := (m1 ++ "\nError Message: ") ++ message
      let m3 := if stderr ≠ "" then (m2 ++ "\nStderr: ") ++ stderr else m2
      let m4 :=
        if stdout ≠ "" then
          if jsTrim stdout ≠ "" then (m3 ++ "\nStdout: ") ++ stdout else m3
        else m3
      some m4
  | ExecOutcome.failedError message =>
      some (("npm install failed in " ++ workingDirectory ++ "." ++ "\nError: ") ++ message)
  | ExecOutcome.failedUnknown text =>
      some (("npm install failed in " ++ workingDirectory ++ "." ++ "\nUnknown error: ")
        ++ text)

/-- The externally visible effects of one strategy execution: the manifest it
wrote, if any, and whether it invoked the installer. -/
structure StrategyEffects where
  manifestWritten : Option (List (String × JsonValue))
  installerRun : Bool

/-- `DeclarativeStrategy.execute` from the successfully parsed configuration
on: extract the dependencies; when none are found return at once, touching
neither the manifest nor the installer; otherwise build the merged manifest
(an existing manifest that fails to parse falls back to the defaults with a
warning), write it, and run `npm install`, whose failure message is thrown.
The existing `package.json`, when present, is given as the outcome of reading
and parsing it; the subprocess is the `npm` parameter. -/
def executeDeclarative (config : List (String × JsonValue))
    (existingManifest : Option (Except String (List (String × JsonValue))))
    (workingDirectory : String) (npm : ExecOutcome) :
    Except String Unit × StrategyEffects :=
  let dependenciesToInstall := extractDependencies config
  if dependenciesToInstall.isEmpty then
    (Except.ok (), { manifestWritten := none, installerRun := false })
  else
    let parsedExisting : Option (List (String × JsonValue)) :=
      match existingManifest with
      | some (Except.ok m) => some m
      | some (Except.error _) => none
      | none => none
    let manifest := mergedManifest parsedExisting dependenciesToInstall
    match runNpmInstallMessage workingDirectory npm with
    | none => (Except.ok (), { manifestWritten := some manifest, installerRun := true })
    | some m => (Except.error m, { manifestWritten := some manifest, installerRun := true })

/-- The message `ImperativeStrategy.execute` throws when no `package.json`
exists in the working directory. -/
def imperativeMissingMessage (workingDirectory packageJsonPath : String) : String :=
  (("Imperative strategy: package.json not found in \x27" ++ workingDirectory
      ++ "\x27 at \x27") ++ packageJsonPath)
    ++ "\x27. A package.json is required for this strategy."

/-- `ImperativeStrategy.execute` (src/strategies/imperative.ts): resolve
`package.json` in the working directory; when it does not exist, throw an
error naming the expected path without writing anything or invoking the
installer; when it exists, run `npm install` directly. -/
def executeImperative (workingDirectory : String) (packageJsonExists : Bool)
    (npm : ExecOutcome) : Except String Unit × StrategyEffects :=
  let packageJsonPath := workingDirectory ++ "/package.json"
  if !packageJsonExists then
    (Except.error (imperativeMissingMessage workingDirectory packageJsonPath),
     { manifestWritten := none, installerRun := false })
  else
    match runNpmInstallMessage workingDirectory npm with
    | none => (Except.ok (), { manifestWritten := none, installerRun := true })
    | some m => (Except.error m, { manifestWritten := none, installerRun := true })

/-- `ConfigFileType` of src/types.ts. -/
inductive ConfigFileType where
  | Declarative
  | Imperative
  | Unknown
deriving DecidableEq

/-- `getConfigType` of src/index.ts: classify by the lower-cased extension;
for unrecognized extensions a basename of `package.json` is Declarative and
anything else is Unknown. -/
def getConfigType (filepath : String) : ConfigFileType :=
  match strToLower (extnameOf filepath) with
  | ".json" => ConfigFileType.Declarative
  | ".yaml" => ConfigFileType.Declarative
  | ".yml" => ConfigFileType.Declarative
  | ".js" => ConfigFileType.Imperative
  | ".cjs" => ConfigFileType.Imperative
  | ".mjs" => ConfigFileType.Imperative
  | ".ts" => ConfigFileType.Imperative
  | _ =>
      if basenameOf filepath = "package.json" then ConfigFileType.Declarative
      else ConfigFileType.Unknown

/-- Which strategy class the runner instantiates. -/
inductive StrategyChoice where
  | declarative
  | imperative
deriving DecidableEq

/-- The strategy dispatch of `prepareEnvironmentAndGetConfigPath`
(src/index.ts): a resolved config whose basename is `package.json` and whose
type is Declarative gets the ImperativeStrategy; otherwise the type selects
the strategy, and an Unknown type is an error. -/
def chooseStrategy (resolvedConfigPath : String) : Except String StrategyChoice :=
  let configFileType := getConfigType resolvedConfigPath
  if basenameOf resolvedConfigPath = "package.json"
      ∧ configFileType = ConfigFileType.Declarative then
    Except.ok StrategyChoice.imperative
  else
    match configFileType with
    | ConfigFileType.Declarative => Except.ok StrategyChoice.declarative
    | ConfigFileType.Imperative => Except.ok StrategyChoice.imperative
    | ConfigFileType.Unknown =>
        Except.error ("Could not determine a valid configuration type for "
          ++ resolvedConfigPath
          ++ ". Please ensure it\x27s a recognized commitlint config format (JSON, YAML, JS) or a package.json with a \x27commitlint\x27 key.")

/-- The part of the `runNpmInstall` failure message that is always present for
an `execSync` error with an exit status: working directory, exit code, and the
wrapped error message (a restatement of the first three accumulation steps of
`runNpmInstallMessage`, named for use in the theorems below). -/
def npmBaseMessage (workingDirectory : String) (s : Int) (message : String) : String :=
  ((("npm install failed in " ++ workingDirectory ++ "." ++ "\nExit Code: ")
      ++ toString s) ++ "\nError Message: ") ++ message

theorem listLeads_append_self (n t : List Char) : listLeads n (n ++ t) = true := by
  induction n with
  | nil => rfl
  | cons a as ih => simp [listLeads, ih]

theorem listLeads_mono (n h t : List Char) (hl : listLeads n h = true) :
    listLeads n (h ++ t) = true := by
  induction n generalizing h with
  | nil => rfl
  | cons a as ih =>
    cases h with
    | nil => simp [listLeads] at hl
    | cons b bs =>
      simp only [listLeads, Bool.and_eq_true] at hl
      simp only [List.cons_append, listLeads, Bool.and_eq_true]
      exact ⟨hl.1, ih bs hl.2⟩

theorem listHasSeg_nil (h : List Char) : listHasSeg [] h = true := by
  cases h with
  | nil => rfl
  | cons b bs => simp [listHasSeg, listLeads]

theorem listHasSeg_of_leads (n h : List Char) (hl : listLeads n h = true) :
    listHasSeg n h = true := by
  cases h with
  | nil =>
    cases n with
    | nil => rfl
    | cons a as => simp [listLeads] at hl
  | cons b bs => simp [listHasSeg, hl]

theorem listHasSeg_append_left (n pre t : List Char) (hs : listHasSeg n t = true) :
    listHasSeg n (pre ++ t) = true := by
  induction pre with
  | nil => simpa using hs
  | cons p ps ih => simp [listHasSeg, ih]

theorem listHasSeg_self_append (n t : List Char) : listHasSeg n (n ++ t) = true :=
  listHasSeg_of_leads _ _ (listLeads_append_self n t)

theorem listHasSeg_mono_right (n h t : List Char) (hs : listHasSeg n h = true) :
    listHasSeg n (h ++ t) = true := by
  induction h with
  | nil =>
    cases n with
    | nil => simpa using listHasSeg_nil t
    | cons a as => simp [listHasSeg, List.isEmpty] at hs
  | cons b bs ih =>
    simp only [listHasSeg, Bool.or_eq_true] at hs
    simp only [List.cons_append, listHasSeg, Bool.or_eq_true]
    cases hs with
    | inl hl => exact Or.inl (listLeads_mono _ _ _ hl)
    | inr hr => exact Or.inr (ih hr)

theorem strContains_part (a b c : String) : strContains ((a ++ b) ++ c) b = true := by
  have hd : ((a ++ b) ++ c).data = a.data ++ (b.data ++ c.data) := by
    simp [List.append_assoc]
  unfold strContains
  rw [hd]
  exact listHasSeg_append_left _ _ _ (listHasSeg_self_append _ _)

theorem strContains_right (a b : String) : strContains (a ++ b) b = true := by
  unfold strContains
  rw [String.data_append]
  exact listHasSeg_append_left _ _ _ (by simpa using listHasSeg_self_append b.data [])

theorem strContains_empty (s : String) : strContains s "" = true := by
  unfold strContains
  exact listHasSeg_nil _

theorem strContains_mono_right (m t sub : String) (h : strContains m sub = true) :
    strContains (m ++ t) sub = true := by
  unfold strContains at h ⊢
  rw [String.data_append]
  exact listHasSeg_mono_right _ _ _ h

theorem jsonLookup_append_some (a b : List (String × JsonValue)) (k : String)
    (v : JsonValue) (h : jsonLookup a k = some v) : jsonLookup (a ++ b) k = some v := by
  induction a with
  | nil => simp [jsonLookup] at h
  | cons kv rest ih =>
    obtain ⟨k', v'⟩ := kv
    by_cases hk : k' = k
    · simpa [jsonLookup, hk] using h
    · simp only [jsonLookup, hk, if_false, List.cons_append, ite_false] at h ⊢
      exact ih h

theorem setKey_self (m : List (String × JsonValue)) (k : String) (v : JsonValue) :
    jsonLookup (setKey m k v) k = some v := by
  induction m with
  | nil => simp [setKey, jsonLookup]
  | cons kv rest ih =>
    obtain ⟨k', w⟩ := kv
    by_cases hk : k' = k
    · simp [setKey, hk, jsonLookup]
    · simp [setKey, hk, jsonLookup, ih]

theorem setKey_other (m : List (String × JsonValue)) (k k' : String) (v : JsonValue)
    (h : k' ≠ k) : jsonLookup (setKey m k v) k' = jsonLookup m k' := by
  induction m with
  | nil =>
    simp only [setKey, jsonLookup]
    rw [if_neg (fun e => h e.symm)]
  | cons kv rest ih =>
    obtain ⟨k0, w⟩ := kv
    by_cases hk : k0 = k
    · subst hk
      simp only [setKey, if_pos rfl, jsonLookup]
      rw [if_neg (fun e => h (Eq.symm e)), if_neg (fun e => h (Eq.symm e))]
    · simp only [setKey, if_neg hk, jsonLookup]
      by_cases hk' : k0 = k'
      · rw [if_pos hk', if_pos hk']
      · rw [if_neg hk', if_neg hk']
        exact ih


theorem mergeDepStep_keeps_truthy (deps : List (String × JsonValue)) (dep name : String)
    (v : JsonValue) (h : jsonLookup deps name = some v) (ht : jsTruthy v = true) :
    jsonLookup (mergeDepStep deps dep) name = some v := by
  unfold mergeDepStep
  by_cases hc : (!(startsWithChar dep '.') && !(pathIsAbsolute dep)) = true
  · rw [if_pos hc]
    split
    · next w heq =>
        by_cases hw : jsTruthy w = true
        · rw [if_pos hw]; exact h
        · rw [if_neg hw]
          by_cases hn : name = dep
          · subst hn
            rw [h] at heq
            cases heq
            exact absurd ht hw
          · rw [setKey_other _ _ _ _ hn]; exact h
    · next heq =>
        by_cases hn : name = dep
        · subst hn
          rw [h] at heq
          cases heq
        · rw [setKey_other _ _ _ _ hn]; exact h
  · rw [if_neg hc]; exact h

theorem mergeDepStep_other (deps : List (String × JsonValue)) (dep name : String)
    (h : name ≠ dep) :
    jsonLookup (mergeDepStep deps dep) name = jsonLookup deps name := by
  unfold mergeDepStep
  by_cases hc : (!(startsWithChar dep '.') && !(pathIsAbsolute dep)) = true
  · rw [if_pos hc]
    split
    · next w heq =>
        by_cases hw : jsTruthy w = true
        · rw [if_pos hw]
        · rw [if_neg hw]; exact setKey_other _ _ _ _ h
    · next heq => exact setKey_other _ _ _ _ h
  · rw [if_neg hc]

theorem mergeDepStep_local (deps : List (String × JsonValue)) (dep : String)
    (h : startsWithChar dep '.' = true ∨ pathIsAbsolute dep = true) :
    mergeDepStep deps dep = deps := by
  unfold mergeDepStep
  cases h with
  | inl hd => simp [hd]
  | inr ha => simp [ha]

theorem mergeDepStep_sets (deps : List (String × JsonValue)) (dep : String)
    (hd : startsWithChar dep '.' = false) (ha : pathIsAbsolute dep = false)
    (h : jsonLookup deps dep = none ∨ jsonLookup deps dep = some (JsonValue.str "*")) :
    jsonLookup (mergeDepStep deps dep) dep = some (JsonValue.str "*") := by
  unfold mergeDepStep
  rw [if_pos (by simp [hd, ha])]
  split
  · next w heq =>
      cases h with
      | inl hn => rw [hn] at heq; cases heq
      | inr hs =>
          rw [hs] at heq
          cases heq
          rw [if_pos (by simp [jsTruthy])]
          exact hs
  · next heq => exact setKey_self _ _ _

theorem mergeDeps_keeps_truthy (ds : List String) (deps : List (String × JsonValue))
    (name : String) (v : JsonValue) (h : jsonLookup deps name = some v)
    (ht : jsTruthy v = true) : jsonLookup (mergeDeps deps ds) name = some v := by
  induction ds generalizing deps with
  | nil => exact h
  | cons d rest ih =>
    exact ih (mergeDepStep deps d) (mergeDepStep_keeps_truthy deps d name v h ht)

theorem mergeDeps_untouched (ds : List String) (deps : List (String × JsonValue))
    (name : String)
    (h : ¬ name ∈ ds ∨ startsWithChar name '.' = true ∨ pathIsAbsolute name = true) :
    jsonLookup (mergeDeps deps ds) name = jsonLookup deps name := by
  induction ds generalizing deps with
  | nil => rfl
  | cons d rest ih =>
    have hstep : jsonLookup (mergeDepStep deps d) name = jsonLookup deps name := by
      by_cases hn : name = d
      · subst hn
        cases h with
        | inl hmem => exact absurd (List.mem_cons_self _ _) hmem
        | inr hloc => rw [mergeDepStep_local deps name hloc]
      · exact mergeDepStep_other deps d name hn
    have hrest : ¬ name ∈ rest ∨ startsWithChar name '.' = true
        ∨ pathIsAbsolute name = true := by
      cases h with
      | inl hmem => exact Or.inl (fun hm => hmem (List.mem_cons_of_mem _ hm))
      | inr hloc => exact Or.inr hloc
    rw [show mergeDeps deps (d :: rest) = mergeDeps (mergeDepStep deps d) rest from rfl]
    rw [ih (mergeDepStep deps d) hrest, hstep]

theorem mergeDeps_mem_star (ds : List String) (deps : List (String × JsonValue))
    (dep : String) (hmem : dep ∈ ds) (hd : startsWithChar dep '.' = false)
    (ha : pathIsAbsolute dep = false)
    (h : jsonLookup deps dep = none ∨ jsonLookup deps dep = some (JsonValue.str "*")) :
    jsonLookup (mergeDeps deps ds) dep = some (JsonValue.str "*") := by
  induction ds generalizing deps with
  | nil => cases hmem
  | cons d rest ih =>
    by_cases hn : d = dep
    · subst hn
      have hset := mergeDepStep_sets deps d hd ha h
      exact mergeDeps_keeps_truthy rest (mergeDepStep deps d) d _ hset (by simp [jsTruthy])
    · have hstep : jsonLookup (mergeDepStep deps d) dep = jsonLookup deps dep :=
        mergeDepStep_other deps d dep (fun e => hn e.symm)
      have hmem' : dep ∈ rest := by
        cases hmem with
        | head => exact absurd rfl hn
        | tail _ hm => exact hm
      exact ih (mergeDepStep deps d) hmem' (by rw [hstep]; exact h)

theorem manifestDepsField_merged (m : List (String × JsonValue)) (ds : List String) :
    manifestDepsField (mergedManifest (some m) ds) = mergeDeps (manifestDepsField m) ds := by
  unfold mergedManifest manifestDepsField
  rw [setKey_self]

theorem lastIdxOf_neg (l : List Char) (c : Char) (h : ¬ c ∈ l) : lastIdxOf l c = -1 := by
  induction l with
  | nil => rfl
  | cons a rest ih =>
    have hc : ¬ c ∈ rest := fun hm => h (List.mem_cons_of_mem _ hm)
    have ha : a ≠ c := fun e => h (by rw [← e]; exact List.mem_cons_self _ _)
    simp only [lastIdxOf, ih hc]
    rw [if_neg (by norm_num), if_neg ha]

theorem lastIdxOf_concat (pre suf : List Char) (c : Char) (h : ¬ c ∈ suf) :
    lastIdxOf (pre ++ c :: suf) c = (pre.length : Int) := by
  induction pre with
  | nil =>
    simp only [List.nil_append, lastIdxOf, lastIdxOf_neg suf c h]
    simp
  | cons a pre' ih =>
    simp only [List.cons_append, lastIdxOf, List.append_eq, ih]
    rw [if_pos (by positivity)]
    simp only [List.length_cons]
    push_cast
    ring

theorem resultsCounts_foldl (items : List SimplifiedLinterResult) (a b : Nat) :
    items.foldl
        (fun (c : Nat × Nat) item => (c.1 + item.errors.length, c.2 + item.warnings.length))
        (a, b)
      = (a + (items.map (fun i => i.errors.length)).sum,
         b + (items.map (fun i => i.warnings.length)).sum) := by
  induction items generalizing a b with
  | nil => simp
  | cons i rest ih =>
    simp only [List.foldl_cons, List.map_cons, List.sum_cons]
    rw [ih]
    simp [Nat.add_assoc]

theorem parseDeclarativeConfigFile_noExt (jp yp : ParseFn) (filepath content : String)
    (h : extnameOf filepath = "") :
    parseDeclarativeConfigFile jp yp filepath content
      = parseNoExt jp yp (basenameOf filepath) content := by
  unfold parseDeclarativeConfigFile
  rw [h]
  rfl

/-- C1: a Linter constructed with a non-null explicit config path that does
not point to an existing file fails lint() with an error naming that exact
path and never falls back to the default rule set; with a null or absent
config path, loadEffectiveConfig resolves the hard-coded
@commitlint/config-conventional default seed and lint() succeeds. -/
theorem linter_explicit_config_contract
    (commits : List CommitToLint) (p : String) (fsExistsSync : String → Bool)
    (loadConfig : ConfigSource → LoadedCommitlintConfig)
    (lintLib : String → LoadedCommitlintConfig → LintOutcome) (helpUrlInput : String) :
    (p ≠ "" → fsExistsSync p = false →
        linterLint commits (some p) fsExistsSync loadConfig lintLib helpUrlInput
          = Except.error ("Specified configuration file was not found at: " ++ p)
        ∧ strContains ("Specified configuration file was not found at: " ++ p) p = true)
    ∧ (loadEffectiveConfig none fsExistsSync = Except.ok ConfigSource.defaultConventional
        ∧ ∃ r, linterLint commits none fsExistsSync loadConfig lintLib helpUrlInput
            = Except.ok r) := by
  refine ⟨?_, rfl, ⟨_, rfl⟩⟩
  intro hp hfs
  refine ⟨?_, strContains_right _ _⟩
  simp [linterLint, loadEffectiveConfig, hp, hfs]

/-- Witness for C1: a concrete missing path fails with the path in the
message, and a null path resolves the default seed. -/
theorem linter_explicit_config_contract_witness :
    linterLint [] (some "/ws/.commitlintrc.json") (fun _ => false)
        (fun _ => { rules := [], helpUrl := "" })
        (fun _ _ => { valid := true, errors := [], warnings := [], input := "" }) ""
      = Except.error ("Specified configuration file was not found at: "
          ++ "/ws/.commitlintrc.json")
    ∧ loadEffectiveConfig none (fun _ => false)
        = Except.ok ConfigSource.defaultConventional := by
  have h := linter_explicit_config_contract [] "/ws/.commitlintrc.json" (fun _ => false)
    (fun _ => { rules := [], helpUrl := "" })
    (fun _ _ => { valid := true, errors := [], warnings := [], input := "" }) ""
  exact ⟨(h.1 (by decide) rfl).1, h.2.1⟩

/-- C2 counterexample to the claim as stated: with an existing manifest whose
`dependencies` pins `pkg-empty` to the falsy empty string, and the extracted
identifiers `["./local-config", "pkg-empty", "pkg-b"]`, the merged map omits
the not-yet-present identifier `./local-config` entirely (the claim requires
every not-yet-present dependency to be inserted) and replaces the existing
`pkg-empty` value with the wildcard (the claim requires existing values kept
untouched). -/
theorem declarative_merge_claim_cx :
    jsonLookup (manifestDepsField (mergedManifest
        (some [("dependencies", JsonValue.obj [("pkg-empty", JsonValue.str "")])])
        ["./local-config", "pkg-empty", "pkg-b"])) "./local-config" = none
    ∧ jsonLookup (manifestDepsField (mergedManifest
        (some [("dependencies", JsonValue.obj [("pkg-empty", JsonValue.str "")])])
        ["./local-config", "pkg-empty", "pkg-b"])) "pkg-empty"
      = some (JsonValue.str "*") :=
  ⟨rfl, rfl⟩

/-- C2 (amended): the merge performed by `DeclarativeStrategy.execute` keeps
any dependency pinned to a truthy (non-empty) version untouched, inserts each
not-yet-present non-local dependency (identifier not starting with `.` and
not an absolute path) under the full identifier with the wildcard `*`, and
preserves every pre-existing top-level manifest field other than
`dependencies`; local-path identifiers are omitted from the map and an
existing falsy (empty-string) version is replaced by the wildcard. -/
theorem declarative_merge_contract (m : List (String × JsonValue)) (ds : List String) :
    (∀ name v, jsonLookup (manifestDepsField m) name = some v → jsTruthy v = true →
        jsonLookup (manifestDepsField (mergedManifest (some m) ds)) name = some v)
    ∧ (∀ dep, dep ∈ ds → startsWithChar dep '.' = false → pathIsAbsolute dep = false →
        jsonLookup (manifestDepsField m) dep = none →
        jsonLookup (manifestDepsField (mergedManifest (some m) ds)) dep
          = some (JsonValue.str "*"))
    ∧ (∀ key v, key ≠ "dependencies" → jsonLookup m key = some v →
        jsonLookup (mergedManifest (some m) ds) key = some v) := by
  refine ⟨?_, ?_, ?_⟩
  · intro name v h ht
    rw [manifestDepsField_merged]
    exact mergeDeps_keeps_truthy ds _ name v h ht
  · intro dep hmem hd ha hnone
    rw [manifestDepsField_merged]
    exact mergeDeps_mem_star ds _ dep hmem hd ha (Or.inl hnone)
  · intro key v hkey h
    unfold mergedManifest
    rw [setKey_other _ _ _ _ hkey]
    unfold spreadDefaults
    exact jsonLookup_append_some _ _ _ _ h

/-- Witness for C2 (amended) at the concrete manifest of the repository's own
merge test: the pinned version survives, the new extends entry is inserted
with the wildcard, and the `name` field is preserved. -/
theorem declarative_merge_contract_witness :
    jsonLookup (manifestDepsField (mergedManifest
        (some [("name", JsonValue.str "existing-project"),
               ("dependencies", JsonValue.obj [("is-positive", JsonValue.str "3.1.0")])])
        ["@commitlint/config-conventional"])) "is-positive"
      = some (JsonValue.str "3.1.0")
    ∧ jsonLookup (manifestDepsField (mergedManifest
        (some [("name", JsonValue.str "existing-project"),
               ("dependencies", JsonValue.obj [("is-positive", JsonValue.str "3.1.0")])])
        ["@commitlint/config-conventional"])) "@commitlint/config-conventional"
      = some (JsonValue.str "*")
    ∧ jsonLookup (mergedManifest
        (some [("name", JsonValue.str "existing-project"),
               ("dependencies", JsonValue.obj [("is-positive", JsonValue.str "3.1.0")])])
        ["@commitlint/config-conventional"]) "name"
      = some (JsonValue.str "existing-project") := by
  have h := declarative_merge_contract
    [("name", JsonValue.str "existing-project"),
     ("dependencies", JsonValue.obj [("is-positive", JsonValue.str "3.1.0")])]
    ["@commitlint/config-conventional"]
  exact ⟨h.1 "is-positive" (JsonValue.str "3.1.0") rfl rfl,
    h.2.1 "@commitlint/config-conventional" (List.mem_singleton.mpr rfl) rfl rfl rfl,
    h.2.2 "name" (JsonValue.str "existing-project") (by decide) rfl⟩

/-- C3: for an extensionless declarative config file, parsing attempts JSON
first (a JSON success is returned at once); when JSON fails and YAML
succeeds the YAML value is returned; when both fail a single error is raised
whose message contains both the JSON and the YAML failure messages. -/
theorem extensionless_parse_contract (jsonParse yamlParse : ParseFn)
    (filepath content : String) (hext : extnameOf filepath = "") :
    (∀ c, jsonParse content = Except.ok c →
        parseDeclarativeConfigFile jsonParse yamlParse filepath content = Except.ok c)
    ∧ (∀ e c, jsonParse content = Except.error e → yamlParse content = Except.ok c →
        parseDeclarativeConfigFile jsonParse yamlParse filepath content = Except.ok c)
    ∧ (∀ e1 e2, jsonParse content = Except.error e1 →
        yamlParse content = Except.error e2 →
        ∃ m, parseDeclarativeConfigFile jsonParse yamlParse filepath content
            = Except.error m
          ∧ strContains m e1 = true ∧ strContains m e2 = true) := by
  refine ⟨?_, ?_, ?_⟩
  · intro c hj
    rw [parseDeclarativeConfigFile_noExt _ _ _ _ hext]
    simp [parseNoExt, hj]
  · intro e c hj hy
    rw [parseDeclarativeConfigFile_noExt _ _ _ _ hext]
    simp [parseNoExt, hj, hy]
  · intro e1 e2 hj hy
    rw [parseDeclarativeConfigFile_noExt _ _ _ _ hext]
    refine ⟨("File \x27" ++ basenameOf filepath ++ "\x27: JSON parse failed (Error: "
        ++ e1 ++ "), YAML parse also failed (Error: " ++ e2
        ++ "). Unsupported format or malformed."), ?_, ?_, ?_⟩
    · simp [parseNoExt, hj, hy]
    · exact strContains_mono_right _ _ _ (strContains_mono_right _ _ _
        (strContains_mono_right _ _ _ (strContains_right _ _)))
    · exact strContains_mono_right _ _ _ (strContains_right _ _)

/-- Witness for C3: a concrete extensionless file whose content both parsers
reject yields one error embedding both messages. -/
theorem extensionless_parse_contract_witness :
    ∃ m, parseDeclarativeConfigFile (fun _ => Except.error "jboom")
        (fun _ => Except.error "yboom") "/repo/.commitlintrc" "bad [" = Except.error m
      ∧ strContains m "jboom" = true ∧ strContains m "yboom" = true :=
  (extensionless_parse_contract (fun _ => Except.error "jboom")
    (fun _ => Except.error "yboom") "/repo/.commitlintrc" "bad [" (by decide)).2.2
    "jboom" "yboom" rfl rfl

/-- C4: the dependency-identifier split of `declarativeLoader`: an identifier
that begins with `@` and contains a second `@` splits at the last `@` into
name and version (so `name ++ "@" ++ ver` with `ver` free of `@` splits into
`(name, ver)`); an identifier not beginning with `@`, or beginning with `@`
but containing no second `@`, becomes the name whole with the wildcard
version. -/
theorem split_dependency_contract (name ver entry : String) :
    (name.data.head? = some '@' → ¬ '@' ∈ ver.data →
        splitDependency (name ++ "@" ++ ver) = (name, ver))
    ∧ (entry.data.head? ≠ some '@' → splitDependency entry = (entry, "*"))
    ∧ (∀ rest : List Char, entry.data = '@' :: rest → ¬ '@' ∈ rest →
        splitDependency entry = (entry, "*")) := by
  refine ⟨?_, ?_, ?_⟩
  · intro hh hv
    have hdata : (name ++ "@" ++ ver).data = name.data ++ '@' :: ver.data := by
      simp only [String.data_append, List.append_assoc]
      rfl
    simp only [splitDependency, hdata]
    rw [lastIdxOf_concat _ _ _ hv]
    have hlen : 0 < name.data.length := by
      cases hn : name.data with
      | nil => rw [hn] at hh; cases hh
      | cons a as => simp
    rw [if_pos ?hc]
    case hc =>
      refine ⟨by exact_mod_cast hlen, ?_⟩
      rw [List.head?_append, hh]
      rfl
    have ht : ((name.data.length : Int)).toNat = name.data.length := Int.toNat_natCast _
    rw [ht, List.take_left]
    have hdrop : (name.data ++ '@' :: ver.data).drop (name.data.length + 1) = ver.data := by
      rw [show name.data ++ '@' :: ver.data = (name.data ++ ['@']) ++ ver.data by simp]
      exact List.drop_left' (by simp)
    rw [hdrop]
  · intro hne
    simp only [splitDependency]
    rw [if_neg (fun hc => hne hc.2)]
  · intro rest hdata hnot
    have hlast : lastIdxOf entry.data '@' = 0 := by
      rw [hdata]
      simpa using lastIdxOf_concat [] rest '@' hnot
    simp only [splitDependency, hlast]
    rw [if_neg (by simp)]

/-- Witness for C4: the scoped identifier with a pinned version splits at the
last `@`; a bare name and a scoped name without a version keep the wildcard. -/
theorem split_dependency_contract_witness :
    splitDependency ("@scope/name" ++ "@" ++ "2.0.0") = ("@scope/name", "2.0.0")
    ∧ splitDependency "plain-pkg" = ("plain-pkg", "*")
    ∧ splitDependency "@scope/name" = ("@scope/name", "*") := by
  have h := split_dependency_contract "@scope/name" "2.0.0" "plain-pkg"
  have h2 := split_dependency_contract "x" "y" "@scope/name"
  exact ⟨h.1 rfl (by decide), h.2.1 (by decide), h2.2.2 "scope/name".data rfl (by decide)⟩

/-- C5: a constructed `Results` has checkedCount equal to the item count,
errorCount and warningCount equal to the sums of the per-item errors and
warnings array lengths, hasErrors exactly when errorCount is positive,
hasOnlyWarnings exactly when errorCount is zero and warningCount positive,
and for the empty list all counts are zero and both flags are false. -/
theorem results_counts_contract (items : List SimplifiedLinterResult) (helpUrl : String) :
    (mkResults items helpUrl).checkedCount = items.length
    ∧ (mkResults items helpUrl).errorCount = (items.map (fun i => i.errors.length)).sum
    ∧ (mkResults items helpUrl).warningCount
        = (items.map (fun i => i.warnings.length)).sum
    ∧ ((mkResults items helpUrl).hasErrors = true
        ↔ 0 < (mkResults items helpUrl).errorCount)
    ∧ ((mkResults items helpUrl).hasOnlyWarnings = true
        ↔ ((mkResults items helpUrl).errorCount = 0
            ∧ 0 < (mkResults items helpUrl).warningCount))
    ∧ ((mkResults ([] : List SimplifiedLinterResult) helpUrl).checkedCount = 0
        ∧ (mkResults ([] : List SimplifiedLinterResult) helpUrl).errorCount = 0
        ∧ (mkResults ([] : List SimplifiedLinterResult) helpUrl).warningCount = 0
        ∧ (mkResults ([] : List SimplifiedLinterResult) helpUrl).hasErrors = false
        ∧ (mkResults ([] : List SimplifiedLinterResult) helpUrl).hasOnlyWarnings
            = false) := by
  refine ⟨rfl, ?_, ?_, ?_, ?_, rfl, rfl, rfl, rfl, rfl⟩
  · show (mkResults items helpUrl).errorCount = _
    unfold mkResults
    rw [resultsCounts_foldl]
    simp
  · show (mkResults items helpUrl).warningCount = _
    unfold mkResults
    rw [resultsCounts_foldl]
    simp
  · simp [Results.hasErrors]
  · simp [Results.hasOnlyWarnings]

/-- C6: a declarative config whose `extends` and `plugins` fields are empty
or absent extracts no dependencies, and executing the declarative strategy on
it returns successfully without writing any manifest and without invoking the
installer. -/
theorem empty_extraction_short_circuit (config : List (String × JsonValue))
    (existingManifest : Option (Except String (List (String × JsonValue))))
    (workingDirectory : String) (npm : ExecOutcome)
    (hext : jsonLookup config "extends" = none
        ∨ jsonLookup config "extends" = some (JsonValue.arr []))
    (hplug : jsonLookup config "plugins" = none
        ∨ jsonLookup config "plugins" = some (JsonValue.arr [])) :
    extractDependencies config = []
    ∧ executeDeclarative config existingManifest workingDirectory npm
        = (Except.ok (), { manifestWritten := none, installerRun := false }) := by
  have hdeps : extractDependencies config = [] := by
    unfold extractDependencies
    rcases hext with h1 | h1 <;> rcases hplug with h2 | h2 <;> rw [h1, h2] <;> rfl
  refine ⟨hdeps, ?_⟩
  unfold executeDeclarative
  rw [hdeps]
  rfl

/-- Witness for C6: a rules-only config with an existing manifest and a
failing installer outcome still returns success with no effects. -/
theorem empty_extraction_short_circuit_witness :
    executeDeclarative [("rules", JsonValue.obj [])]
        (some (Except.ok [("name", JsonValue.str "proj")])) "/ws"
        (ExecOutcome.failedWithStatus (some 1) "boom" "err" "out")
      = (Except.ok (), { manifestWritten := none, installerRun := false }) :=
  (empty_extraction_short_circuit [("rules", JsonValue.obj [])]
    (some (Except.ok [("name", JsonValue.str "proj")])) "/ws"
    (ExecOutcome.failedWithStatus (some 1) "boom" "err" "out")
    (Or.inl rfl) (Or.inl rfl)).2

/-- C7: the imperative strategy in a directory without `package.json` fails
with an error naming the expected manifest path, writing nothing and not
invoking the installer; with the manifest present the installer is invoked
directly and no manifest is synthesized. -/
theorem imperative_requires_manifest (workingDirectory : String) (npm : ExecOutcome) :
    (∃ m, executeImperative workingDirectory false npm
        = (Except.error m, { manifestWritten := none, installerRun := false })
      ∧ strContains m (workingDirectory ++ "/package.json") = true)
    ∧ (executeImperative workingDirectory true npm).2.installerRun = true
    ∧ (executeImperative workingDirectory true npm).2.manifestWritten = none := by
  refine ⟨⟨imperativeMissingMessage workingDirectory (workingDirectory ++ "/package.json"),
    rfl, ?_⟩, ?_, ?_⟩
  · exact strContains_part _ _ _
  · cases npm <;> rfl
  · cases npm <;> rfl

/-- C8 counterexample to the claim as stated: for a non-zero exit whose
captured stdout is whitespace only (here three newlines), the thrown message
does not contain that stdout verbatim, because the code appends stdout only
when it is non-blank after trimming. -/
theorem npm_failure_message_claim_cx :
    ∃ m, runNpmInstallMessage "/work"
        (ExecOutcome.failedWithStatus (some 1) "boom" "E404" "\n\n\n") = some m
      ∧ strContains m "\n\n\n" = false := by
  refine ⟨"npm install failed in /work.\nExit Code: 1\nError Message: boom\nStderr: E404",
    ?_, ?_⟩
  · rfl
  · decide

/-- C8 (amended): for every installer invocation that exits non-zero, the
thrown message contains the working directory, the exit status, and the
captured stderr verbatim; the captured stdout is contained verbatim whenever
it has non-whitespace content (a whitespace-only stdout is omitted from the
message). -/
theorem npm_failure_message_detail (workingDirectory : String) (s : Int)
    (message stderr stdout : String) :
    ∃ m, runNpmInstallMessage workingDirectory
        (ExecOutcome.failedWithStatus (some s) message stderr stdout) = some m
      ∧ strContains m workingDirectory = true
      ∧ strContains m (toString s) = true
      ∧ strContains m stderr = true
      ∧ (jsTrim stdout ≠ "" → strContains m stdout = true) := by
  have c_wd : strContains (npmBaseMessage workingDirectory s message)
      workingDirectory = true := by
    unfold npmBaseMessage
    exact strContains_mono_right _ _ _ (strContains_mono_right _ _ _
      (strContains_mono_right _ _ _ (strContains_mono_right _ _ _
        (strContains_part _ _ _))))
  have c_ts : strContains (npmBaseMessage workingDirectory s message)
      (toString s) = true := by
    unfold npmBaseMessage
    exact strContains_mono_right _ _ _ (strContains_mono_right _ _ _
      (strContains_right _ _))
  by_cases hse : stderr = ""
  · by_cases hst : jsTrim stdout = ""
    · refine ⟨npmBaseMessage workingDirectory s message, ?_, c_wd, c_ts, ?_, ?_⟩
      · simp [runNpmInstallMessage, npmBaseMessage, hse, hst]
      · rw [hse]; exact strContains_empty _
      · intro hcontra; exact absurd hst hcontra
    · have hso : stdout ≠ "" := fun e => hst (by rw [e]; rfl)
      refine ⟨(npmBaseMessage workingDirectory s message ++ "\nStdout: ") ++ stdout,
        ?_, ?_, ?_, ?_, ?_⟩
      · simp [runNpmInstallMessage, npmBaseMessage, hse, hst, hso]
      · exact strContains_mono_right _ _ _ (strContains_mono_right _ _ _ c_wd)
      · exact strContains_mono_right _ _ _ (strContains_mono_right _ _ _ c_ts)
      · rw [hse]; exact strContains_empty _
      · intro _; exact strContains_right _ _
  · by_cases hst : jsTrim stdout = ""
    · refine ⟨(npmBaseMessage workingDirectory s message ++ "\nStderr: ") ++ stderr,
        ?_, ?_, ?_, ?_, ?_⟩
      · simp [runNpmInstallMessage, npmBaseMessage, hse, hst]
      · exact strContains_mono_right _ _ _ (strContains_mono_right _ _ _ c_wd)
      · exact strContains_mono_right _ _ _ (strContains_mono_right _ _ _ c_ts)
      · exact strContains_right _ _
      · intro hcontra; exact absurd hst hcontra
    · have hso : stdout ≠ "" := fun e => hst (by rw [e]; rfl)
      refine ⟨(((npmBaseMessage workingDirectory s message ++ "\nStderr: ") ++ stderr)
          ++ "\nStdout: ") ++ stdout, ?_, ?_, ?_, ?_, ?_⟩
      · simp [runNpmInstallMessage, npmBaseMessage, hse, hst, hso]
      · exact strContains_mono_right _ _ _ (strContains_mono_right _ _ _
          (strContains_mono_right _ _ _ (strContains_mono_right _ _ _ c_wd)))
      · exact strContains_mono_right _ _ _ (strContains_mono_right _ _ _
          (strContains_mono_right _ _ _ (strContains_mono_right _ _ _ c_ts)))
      · exact strContains_mono_right _ _ _ (strContains_mono_right _ _ _
          (strContains_right _ _))
      · intro _; exact strContains_right _ _

/-- Witness for C8 (amended): a concrete failure with non-blank stderr and
stdout surfaces the directory, the status, and both streams in the message. -/
theorem npm_failure_message_detail_witness :
    ∃ m, runNpmInstallMessage "/ws"
        (ExecOutcome.failedWithStatus (some 7) "Command failed" "E404 not found"
          "npm output") = some m
      ∧ strContains m "/ws" = true
      ∧ strContains m (toString (7 : Int)) = true
      ∧ strContains m "E404 not found" = true
      ∧ strContains m "npm output" = true := by
  obtain ⟨m, h1, h2, h3, h4, h5⟩ :=
    npm_failure_message_detail "/ws" 7 "Command failed" "E404 not found" "npm output"
  exact ⟨m, h1, h2, h3, h4, h5 (by decide)⟩

/-- C9: a resolved config file whose basename is `package.json` is classified
Declarative but dispatched to the ImperativeStrategy, which never writes a
manifest (so no dependency extraction or manifest synthesis happens for
package.json-embedded configs). -/
theorem package_json_dispatch (p : String) (h : basenameOf p = "package.json") :
    getConfigType p = ConfigFileType.Declarative
    ∧ chooseStrategy p = Except.ok StrategyChoice.imperative
    ∧ (∀ (workingDirectory : String) (packageJsonExists : Bool) (npm : ExecOutcome),
        (executeImperative workingDirectory packageJsonExists npm).2.manifestWritten
          = none) := by
  have htype : getConfigType p = ConfigFileType.Declarative := by
    unfold getConfigType extnameOf
    rw [h]
    rfl
  refine ⟨htype, ?_, ?_⟩
  · simp [chooseStrategy, htype, h]
  · intro workingDirectory packageJsonExists npm
    cases packageJsonExists
    · rfl
    · cases npm <;> rfl

/-- Witness for C9 at a concrete workspace path. -/
theorem package_json_dispatch_witness :
    getConfigType "/workspace/package.json" = ConfigFileType.Declarative
    ∧ chooseStrategy "/workspace/package.json" = Except.ok StrategyChoice.imperative := by
  have h := package_json_dispatch "/workspace/package.json" (by decide)
  exact ⟨h.1, h.2.1⟩

/-- C10: an extracted identifier beginning with `.` or absolute is omitted by
the declarative merge: its binding in the written dependencies map is exactly
its binding in the existing map, and a key absent from the existing map stays
absent unless it is a non-local member of the extracted identifiers. -/
theorem local_identifiers_omitted (m : List (String × JsonValue)) (ds : List String) :
    (∀ dep, startsWithChar dep '.' = true ∨ pathIsAbsolute dep = true →
        jsonLookup (manifestDepsField (mergedManifest (some m) ds)) dep
          = jsonLookup (manifestDepsField m) dep)
    ∧ (∀ name, jsonLookup (manifestDepsField m) name = none →
        (¬ name ∈ ds ∨ startsWithChar name '.' = true ∨ pathIsAbsolute name = true) →
        jsonLookup (manifestDepsField (mergedManifest (some m) ds)) name = none) := by
  constructor
  · intro dep hloc
    rw [manifestDepsField_merged]
    exact mergeDeps_untouched ds _ dep (Or.inr hloc)
  · intro name hnone hcond
    rw [manifestDepsField_merged]
    rw [mergeDeps_untouched ds _ name hcond]
    exact hnone

/-- Witness for C10: a relative and an absolute identifier are both left out
of the written map. -/
theorem local_identifiers_omitted_witness :
    jsonLookup (manifestDepsField (mergedManifest
        (some [("dependencies", JsonValue.obj [])]) ["./local", "/abs/cfg", "pkg"]))
      "./local" = none
    ∧ jsonLookup (manifestDepsField (mergedManifest
        (some [("dependencies", JsonValue.obj [])]) ["./local", "/abs/cfg", "pkg"]))
      "/abs/cfg" = none := by
  have h := local_identifiers_omitted [("dependencies", JsonValue.obj [])]
    ["./local", "/abs/cfg", "pkg"]
  constructor
  · rw [h.1 "./local" (Or.inl rfl)]
    rfl
  · rw [h.1 "/abs/cfg" (Or.inr rfl)]
    rfl
